import Mathlib

/-!
# Verification of the antd-country-phone-picker core

A shallow embedding of the package's core logic:

* the phone value codec (`src/utils/phone.ts`: `parsePhoneNumber`,
  `normalizePhoneValue`, `formatPhoneNumber`),
* the input-protection engine (`src/hooks/useInputProtection.ts`:
  `handleKeyDown`, `handlePaste`, `handleCut`),
* the text sanitizer of the phone input (`src/components/PhoneInput.tsx`:
  `handleChange`),
* the orchestrator's country switch (`src/components/CountryPhoneInput.tsx`:
  `handleCountryChange`),
* the country list filter (`src/hooks/useCountries.ts`).

JavaScript strings are modelled as `List Char`; DOM selection offsets as `Nat`.
All definitions are transcribed from the TypeScript source; theorems below
settle the spec's claims about them.
-/

/-- A catalog country record: ISO2 code, display name, dial code, and an
optional format template that uses the period character as digit placeholder
(`src/data/countries.ts` record shape). -/
structure Country where
  iso2 : List Char
  name : List Char
  dialCode : List Char
  format : Option (List Char)
deriving DecidableEq

/-- Character class of the JS regex `[\d+]`: a decimal digit or a plus sign. -/
def digitOrPlus (ch : Char) : Bool := ch.isDigit || ch == '+'

/-- Transcribes `value.replace(/[^\d+]/g, '')`: keep only digits and plus signs. -/
def cleanedOf (v : List Char) : List Char := v.filter digitOrPlus

/-- Transcribes `value.replace(/^\+/, '')`: drop a single leading plus sign. -/
def stripLeadingPlus (l : List Char) : List Char :=
  match l with
  | [] => []
  | c :: rest => if c = '+' then rest else c :: rest

/-- JS `s.startsWith(lead)`. -/
def startsWithL (s lead : List Char) : Bool := decide (s.take lead.length = lead)

/-- The structured phone value built by `parsePhoneNumber`
(`src/types.ts` interface `PhoneValue`). -/
structure PhoneValue where
  fullNumber : List Char
  nationalNumber : List Char
  dialCode : List Char
  countryCode : List Char
  country : Option Country
  isValid : Bool
  rawValue : List Char
deriving DecidableEq

/-- The branch analysis of `parsePhoneNumber` (`src/utils/phone.ts` 61-93),
returning the pair (nationalNumber, fullNumber) from the cleaned text. -/
def parseParts (cleaned : List Char) (country : Option Country) :
    List Char × List Char :=
  match country with
  | some c =>
    if startsWithL cleaned ('+' :: c.dialCode) then
      (cleaned.drop (c.dialCode.length + 1), cleaned)
    else if startsWithL cleaned c.dialCode then
      (cleaned.drop c.dialCode.length, '+' :: cleaned)
    else
      (stripLeadingPlus cleaned, cleaned)
  | none => (stripLeadingPlus cleaned, cleaned)

/-- Function `parsePhoneNumber` from `src/utils/phone.ts` 61-93. -/
def parsePhoneNumber (value : List Char) (country : Option Country) : PhoneValue :=
  let pr := parseParts (cleanedOf value) country
  { fullNumber := pr.2
    nationalNumber := pr.1
    dialCode := match country with | some c => '+' :: c.dialCode | none => []
    countryCode := match country with | some c => c.iso2 | none => []
    country := country
    isValid := decide (4 ≤ pr.1.length) && decide (pr.1.length ≤ 15)
    rawValue := value }

/-- Function `normalizePhoneValue` from `src/utils/phone.ts` 98-120. -/
def normalizePhoneValue (value : List Char) (country : Option Country) : List Char :=
  match country with
  | none => value
  | some c =>
    if !(startsWithL (cleanedOf value) ('+' :: c.dialCode))
        && !(startsWithL (cleanedOf value) c.dialCode) then
      '+' :: c.dialCode ++ stripLeadingPlus (cleanedOf value)
    else if !(startsWithL (cleanedOf value) ['+']) then
      '+' :: cleanedOf value
    else
      cleanedOf value

/-- The digit string `formatPhoneNumber` works on after prefix injection:
`digits` in `src/utils/phone.ts` 15-19. -/
def digitsOfPhone (phone : List Char) (country : Option Country) : List Char :=
  match country with
  | some c =>
    if startsWithL (cleanedOf phone) ['+'] then cleanedOf phone
    else '+' :: c.dialCode ++ cleanedOf phone
  | none => cleanedOf phone

/-- The template-filling loop of `formatPhoneNumber` (`src/utils/phone.ts`
37-48): walk the format while input characters remain, consuming one input
character per period placeholder and emitting other template characters
verbatim.  Returns the emitted output and the unconsumed input. -/
def formatLoop : List Char → List Char → List Char × List Char
  | _, [] => ([], [])
  | [], ds => ([], ds)
  | f :: fs, d :: ds =>
    if f == '.' then
      let pr := formatLoop fs ds
      (d :: pr.1, pr.2)
    else
      let pr := formatLoop fs (d :: ds)
      (f :: pr.1, pr.2)

/-- Function `formatPhoneNumber` from `src/utils/phone.ts` 7-56. -/
def formatPhoneNumber (phone : List Char) (country : Option Country)
    (disableParens : Bool) : List Char :=
  if phone = [] then [] else
    match country with
    | none => digitsOfPhone phone none
    | some c =>
      match c.format with
      | none => digitsOfPhone phone (some c)
      | some fmt0 =>
        (formatLoop
            (if disableParens then fmt0.filter (fun ch => !(ch == '(' || ch == ')')) else fmt0)
            (stripLeadingPlus (digitsOfPhone phone (some c)))).1
        ++ (formatLoop
            (if disableParens then fmt0.filter (fun ch => !(ch == '(' || ch == ')')) else fmt0)
            (stripLeadingPlus (digitsOfPhone phone (some c)))).2

/-- The clean digit string consumed by the formatter (`cleanDigits` in
`src/utils/phone.ts` 35), taking the early return on empty input into
account. -/
def cleanDigitsOf (phone : List Char) (c : Country) : List Char :=
  if phone = [] then [] else stripLeadingPlus (digitsOfPhone phone (some c))

/-- Count of placeholder periods in a country's format template: the spec's
derived maximum national-number length. -/
def dotCount (c : Country) : Option Nat := c.format.map (fun f => f.count '.')

/-- Function `getProtectedPosition` (`src/hooks/useInputProtection.ts` 187-191) for a
non-null country: one plus the dial code length. -/
def protectedPos (c : Country) : Nat := 1 + c.dialCode.length

/-- Outcome of a key-down handler: either the default edit was prevented
(optionally substituting a new text and cursor via the change callback and
`setSelectionRange`), or the default edit is allowed to proceed. -/
inductive KeyOutcome where
  | prevented (newText : Option (List Char)) (newCursor : Option Nat)
  | allowed
deriving DecidableEq

/-- The Backspace branch of `handleKeyDown`
(`src/hooks/useInputProtection.ts` 202-228). -/
def handleKeyDownBackspace (value : List Char) (p s e : Nat) : KeyOutcome :=
  if s ≤ p then
    if e > s then
      if s < p then
        if e > p then .prevented (some (value.take p ++ value.drop e)) (some p)
        else .prevented none none
      else .allowed
    else .prevented none none
  else .allowed

/-- The Delete branch of `handleKeyDown`
(`src/hooks/useInputProtection.ts` 230-244). -/
def handleKeyDownDelete (value : List Char) (p s e : Nat) : KeyOutcome :=
  if s < p then
    if e > p then .prevented (some (value.take p ++ value.drop e)) (some p)
    else .prevented none none
  else .allowed

/-- Function `handleChange` of the phone input (`src/components/PhoneInput.tsx` 58-81):
re-synthesize the dial code if missing and strip non-digits after it. -/
def handleChange (c : Country) (newValue : List Char) : List Char :=
  let dialCode := '+' :: c.dialCode
  if startsWithL newValue dialCode then
    newValue.take dialCode.length ++ (newValue.drop dialCode.length).filter Char.isDigit
  else
    dialCode ++ newValue.filter Char.isDigit

/-- The text field's default Backspace edit (environment semantics of the
`<input>` element): remove the selection, or the character before a collapsed
caret.  Returns the new text and caret. -/
def defaultBackspace (value : List Char) (s e : Nat) : List Char × Nat :=
  if s < e then (value.take s ++ value.drop e, s)
  else if 0 < s then (value.take (s - 1) ++ value.drop s, s - 1)
  else (value, 0)

/-- The text field's default Delete edit (environment semantics): remove the
selection, or the character after a collapsed caret. -/
def defaultDelete (value : List Char) (s e : Nat) : List Char × Nat :=
  if s < e then (value.take s ++ value.drop e, s)
  else (value.take s ++ value.drop (s + 1), s)

/-- A complete Backspace interaction on the phone input: run the protection
handler; when it prevents the default it may substitute a new value, and when
it allows the default the browser edit is applied and the result passes
through `handleChange`.  Returns the resulting text and caret. -/
def backspaceStep (c : Country) (value : List Char) (s e : Nat) : List Char × Nat :=
  match handleKeyDownBackspace value (protectedPos c) s e with
  | .prevented (some t) cur => (t, cur.getD s)
  | .prevented none _ => (value, s)
  | .allowed =>
    (handleChange c (defaultBackspace value s e).1, (defaultBackspace value s e).2)

/-- A complete Delete-key interaction, analogous to `backspaceStep`. -/
def deleteStep (c : Country) (value : List Char) (s e : Nat) : List Char × Nat :=
  match handleKeyDownDelete value (protectedPos c) s e with
  | .prevented (some t) cur => (t, cur.getD s)
  | .prevented none _ => (value, s)
  | .allowed =>
    (handleChange c (defaultDelete value s e).1, (defaultDelete value s e).2)

/-- Result of `handlePaste`: the resulting text, the resulting selection
range, whether the default edit was suppressed, and whether the change
callback fired. -/
structure PasteResult where
  text : List Char
  selStart : Nat
  selEnd : Nat
  prevented : Bool
  fired : Bool
deriving DecidableEq

/-- Function `handlePaste` from `src/hooks/useInputProtection.ts` 280-326.  The
sanitized clipboard text is `clip.filter Char.isDigit`; an empty result
rejects the paste, a selection starting inside the protected zone clamps the
insertion point to `p`, and otherwise the sanitized digits replace the
selection. -/
def handlePaste (value : List Char) (p s e : Nat) (clip : List Char) : PasteResult :=
  if clip.filter Char.isDigit = [] then
    { text := value, selStart := s, selEnd := e, prevented := true, fired := false }
  else if s < p then
    { text := value.take p ++ clip.filter Char.isDigit ++ value.drop (if e > p then e else p)
      selStart := p + (clip.filter Char.isDigit).length
      selEnd := p + (clip.filter Char.isDigit).length
      prevented := true
      fired := true }
  else
    { text := value.take s ++ clip.filter Char.isDigit ++ value.drop e
      selStart := s + (clip.filter Char.isDigit).length
      selEnd := s + (clip.filter Char.isDigit).length
      prevented := true
      fired := true }

/-- Result of `handleCut`: whether the default was suppressed, the resulting
text, and what was placed on the clipboard by the handler. -/
structure CutResult where
  prevented : Bool
  text : List Char
  clipboardData : Option (List Char)
deriving DecidableEq

/-- Function `handleCut` from `src/hooks/useInputProtection.ts` 331-363. -/
def handleCut (value : List Char) (p s e : Nat) : CutResult :=
  if s < p then
    if (value.take e).drop (max s p) = [] then
      { prevented := true, text := value, clipboardData := none }
    else if e > p then
      { prevented := true, text := value.take p ++ value.drop e,
        clipboardData := some ((value.take e).drop (max s p)) }
    else
      { prevented := true, text := value, clipboardData := some ((value.take e).drop (max s p)) }
  else { prevented := false, text := value, clipboardData := none }

/-- The regex replacement `inputValue.replace(new RegExp('^\\+?' + dc), '')`
used by `handleCountryChange`: drop an optional plus sign followed by the old
dial code at the start of the value. -/
def stripDialLead (dc : List Char) (v : List Char) : List Char :=
  if startsWithL v ('+' :: dc) then v.drop (dc.length + 1)
  else if startsWithL v dc then v.drop dc.length
  else v

/-- The input state owned by the orchestrator component: selected country and
raw input text. -/
structure InputState where
  country : Country
  text : List Char
deriving DecidableEq

/-- Function `handleCountryChange` from `src/components/CountryPhoneInput.tsx` 606-630:
extract the current national digits by stripping the previous dial code, then
re-synthesize the value with the new dial code. -/
def handleCountryChange (st : InputState) (newCountry : Country) : InputState :=
  let currentNational := (stripDialLead st.country.dialCode st.text).filter Char.isDigit
  { country := newCountry, text := '+' :: newCountry.dialCode ++ currentNational }

/-- The supported edit intents of the protected input, each carrying the DOM
selection observed when the event fired. -/
inductive Intent where
  | backspace (s e : Nat)
  | deleteKey (s e : Nat)
  | homeKey (shift : Bool)
  | arrowLeft (shift : Bool)
  | paste (s e : Nat) (clip : List Char)
  | cut (s e : Nat)
  | change (newText : List Char)
  | selectCountry (c : Country)

/-- One transition of the input state machine.  Key and clipboard intents run
the protection handlers; an allowed default edit is followed by the
`handleChange` sanitizer, matching the browser event order.  Home and arrow
keys only move the cursor. -/
def step (st : InputState) (i : Intent) : InputState :=
  match i with
  | .backspace s e => { st with text := (backspaceStep st.country st.text s e).1 }
  | .deleteKey s e => { st with text := (deleteStep st.country st.text s e).1 }
  | .homeKey _ => st
  | .arrowLeft _ => st
  | .paste s e clip =>
    { st with text := (handlePaste st.text (protectedPos st.country) s e clip).text }
  | .cut s e =>
    let r := handleCut st.text (protectedPos st.country) s e
    if r.prevented then { st with text := r.text }
    else { st with text := handleChange st.country (st.text.take s ++ st.text.drop e) }
  | .change t => { st with text := handleChange st.country t }
  | .selectCountry c => handleCountryChange st c

/-- The initial state for a selected country: text is plus sign followed by
its dial code. -/
def initState (c : Country) : InputState := { country := c, text := '+' :: c.dialCode }

/-- Run a sequence of intents from a state. -/
def runIntents (st : InputState) (l : List Intent) : InputState := l.foldl step st

/-- The protected-lead invariant of an input state: the text's first
`protectedPos` characters are exactly the plus sign and the selected
country's dial code. -/
def goodState (st : InputState) : Prop :=
  st.text.take (protectedPos st.country) = '+' :: st.country.dialCode

/-- JS `toUpperCase` over the characters of an ISO2 code. -/
def upperStr (s : List Char) : List Char := s.map Char.toUpper

/-- JS `Set.has` membership among code strings. -/
def memB (a : List Char) : List (List Char) → Bool
  | [] => false
  | b :: r => a == b || memB a r

/-- The `only` filter of `useCountries` (`src/hooks/useCountries.ts` 47-51):
skipped when absent or empty, else keep countries whose upper-cased ISO2 is in
the upper-cased allow-set. -/
def onlyPass (only : Option (List (List Char))) (l : List Country) : List Country :=
  match only with
  | none => l
  | some o =>
    if o.isEmpty then l
    else l.filter (fun c => memB (upperStr c.iso2) (o.map upperStr))

/-- The `exclude` filter of `useCountries` (`src/hooks/useCountries.ts`
53-57). -/
def excludePass (excl : Option (List (List Char))) (l : List Country) : List Country :=
  match excl with
  | none => l
  | some ex =>
    if ex.isEmpty then l
    else l.filter (fun c => !(memB (upperStr c.iso2) (ex.map upperStr)))

/-- The stateful `distinct` filter (`src/hooks/useCountries.ts` 59-69): keep
the first country seen for each dial code. -/
def distinctAux : List Country → List (List Char) → List Country
  | [], _ => []
  | c :: rest, seen =>
    if memB c.dialCode seen then distinctAux rest seen
    else c :: distinctAux rest (c.dialCode :: seen)

/-- Apply the `distinct` reduction when enabled. -/
def distinctPass (distinct : Bool) (l : List Country) : List Country :=
  if distinct then distinctAux l [] else l

/-- The working country list computed by `useCountries`
(`src/hooks/useCountries.ts` 44-72): only, then exclude, then distinct. -/
def useCountriesList (catalog : List Country) (only excl : Option (List (List Char)))
    (distinct : Bool) : List Country :=
  distinctPass distinct (excludePass excl (onlyPass only catalog))

/-- Modelled from the spec: the catalog file `src/data/countries.ts` is not
among the sources; this is the US record as documented by the spec and README
(dial code "1", format template with period placeholders). -/
def usC : Country :=
  { iso2 := "US".toList, name := "United States".toList, dialCode := "1".toList,
    format := some "+. (...) ...-....".toList }

/-- Modelled from the spec: the Canada record (shares dial code "1" with the
US), used as a concrete catalog entry in witnesses. -/
def caC : Country :=
  { iso2 := "CA".toList, name := "Canada".toList, dialCode := "1".toList,
    format := some "+. (...) ...-....".toList }

/-- A country record with dial code "44" and a short format template of four
placeholder periods, used to exhibit the missing length clamp on country
switch. -/
def gbShort : Country :=
  { iso2 := "GB".toList, name := "United Kingdom".toList, dialCode := "44".toList,
    format := some "....".toList }

lemma take_len_append (a b : List Char) : (a ++ b).take a.length = a := by simp

lemma drop_len_append (a b : List Char) : (a ++ b).drop a.length = b := by simp

lemma startsWithL_iff {s lead : List Char} :
    startsWithL s lead = true ↔ s.take lead.length = lead := by
  simp [startsWithL]

lemma startsWithL_append (lead rest : List Char) : startsWithL (lead ++ rest) lead = true := by
  rw [startsWithL_iff]
  exact take_len_append lead rest

lemma exists_of_startsWithL {s lead : List Char} (h : startsWithL s lead = true) :
    ∃ rest, s = lead ++ rest := by
  refine ⟨s.drop lead.length, ?_⟩
  rw [startsWithL_iff] at h
  conv_lhs => rw [← List.take_append_drop lead.length s]
  rw [h]

lemma protected_take (c : Country) (r : List Char) :
    ('+' :: (c.dialCode ++ r)).take (protectedPos c) = '+' :: c.dialCode := by
  have h : protectedPos c = ('+' :: c.dialCode).length := by
    simp [protectedPos, Nat.add_comm]
  rw [h]
  exact take_len_append ('+' :: c.dialCode) r

/-- Claim C2 (code bug): switching from the US with text `"+12025551234"` to a
country with dial code "44" whose format template has only 4 placeholders
yields `"+442025551234"` — all 10 national digits are kept; the handler never
clamps to the new country's maximum length. -/
theorem countryChange_keeps_excess_digits :
    (handleCountryChange { country := usC, text := "+12025551234".toList } gbShort).text
        = "+442025551234".toList
    ∧ dotCount gbShort = some 4
    ∧ (((handleCountryChange { country := usC, text := "+12025551234".toList }
          gbShort).text).drop (protectedPos gbShort)).length = 10 := by
  decide

/-- Claim C3 (counterexample): for US text `"+12025551234"`, selection
`[0,3)`, pasting `"9999"` does not produce the spec's `"+19999551234"`. -/
theorem paste_clamp_claim_false :
    (handlePaste "+12025551234".toList (protectedPos usC) 0 3 "9999".toList).text
      ≠ "+19999551234".toList := by
  decide

/-- Claim C3 (amended): for US text `"+12025551234"`, selection `[0,3)`,
pasting `"9999"` inserts the pasted digits at position 2, keeps the protected
zone `[0,2)` and removes the unprotected selected character, producing
`"+19999025551234"` with the cursor at 6. -/
theorem paste_clamp_amended :
    handlePaste "+12025551234".toList (protectedPos usC) 0 3 "9999".toList
      = { text := "+19999025551234".toList, selStart := 6, selEnd := 6,
          prevented := true, fired := true }
    ∧ ("+19999025551234".toList).take (protectedPos usC) = "+1".toList := by
  decide

/-- Claim C4 (counterexample): for US text `"+12025551234"`, selecting `[0,5)`
then Backspace does not produce the spec's `"+1551234"`. -/
theorem selection_backspace_claim_false :
    (backspaceStep usC "+12025551234".toList 0 5).1 ≠ "+1551234".toList := by
  decide

/-- Claim C4 (amended): for US text `"+12025551234"`, selecting `[0,5)` then
Backspace keeps the protected zone `[0,2)` and deletes `[2,5)`, yielding
`"+15551234"` with the cursor collapsed to 2. -/
theorem selection_backspace_amended :
    backspaceStep usC "+12025551234".toList 0 5 = ("+15551234".toList, 2) := by
  decide

/-- Claim C5 (counterexample): for US text `"+12025551234"`, Backspace with
the caret at 5 does not produce the spec's `"+1202551234"` (the default edit
removes the character at index 4). -/
theorem backspace_protection_claim_false :
    (backspaceStep usC "+12025551234".toList 5 5).1 ≠ "+1202551234".toList := by
  decide

/-- Claim C5 (amended): for US text `"+12025551234"`, Backspace with the caret
at 2 leaves the text unchanged, and Backspace with the caret at 5 removes the
character at index 4, yielding `"+1205551234"` with the caret at 4. -/
theorem backspace_protection_amended :
    (backspaceStep usC "+12025551234".toList 2 2).1 = "+12025551234".toList
    ∧ backspaceStep usC "+12025551234".toList 5 5 = ("+1205551234".toList, 4) := by
  decide

/-- Claim C6 (counterexample): on input `"+1+++234"` with the US selected, the
extracted national number is `"+++234"`, whose length 6 makes `isValid` true
even though it contains only 3 digit characters — refuting the claim that
`isValid` tracks the national digit count for every raw text. -/
theorem isValid_digit_count_claim_false :
    (parsePhoneNumber "+1+++234".toList (some usC)).isValid = true
    ∧ ((parsePhoneNumber "+1+++234".toList
        (some usC)).nationalNumber.filter Char.isDigit).length = 3 := by
  decide

/-- Claim C6 (amended): `parsePhoneNumber` returns `isValid` true exactly when
the extracted national number's character length is between 4 and 15
inclusive; in particular national numbers of length 3, 4, 15 and 16 give
false, true, true and false. -/
theorem isValid_length_boundaries :
    (∀ (v : List Char) (c : Option Country),
        (parsePhoneNumber v c).isValid = true
          ↔ (4 ≤ (parsePhoneNumber v c).nationalNumber.length
              ∧ (parsePhoneNumber v c).nationalNumber.length ≤ 15))
    ∧ (parsePhoneNumber "+1123".toList (some usC)).isValid = false
    ∧ (parsePhoneNumber "+11234".toList (some usC)).isValid = true
    ∧ (parsePhoneNumber "+1123456789012345".toList (some usC)).isValid = true
    ∧ (parsePhoneNumber "+11234567890123456".toList (some usC)).isValid = false := by
  refine ⟨?_, by decide, by decide, by decide, by decide⟩
  intro v c
  simp [parsePhoneNumber, Bool.and_eq_true, decide_eq_true_iff]

/-- Claim C9: a paste whose clipboard text sanitizes to no digits is rejected
atomically — the default edit is suppressed, the change callback never fires,
and text and selection are unchanged, for every selection position. -/
theorem handlePaste_rejects_digitless (value : List Char) (p s e : Nat)
    (clip : List Char) (h : clip.filter Char.isDigit = []) :
    handlePaste value p s e clip
      = { text := value, selStart := s, selEnd := e, prevented := true,
          fired := false } := by
  simp [handlePaste, h]

/-- Claim C9 (witness): pasting `"ab - c!"` into `"+1555"` with selection
`[0,3)` changes nothing and fires no callback. -/
theorem handlePaste_rejects_digitless_witness :
    handlePaste "+1555".toList 2 0 3 "ab - c!".toList
      = { text := "+1555".toList, selStart := 0, selEnd := 3, prevented := true,
          fired := false } :=
  handlePaste_rejects_digitless _ 2 0 3 _ (by decide)


lemma take_append_ge (a b : List Char) (n : Nat) (h : a.length ≤ n) :
    (a ++ b).take n = a ++ b.take (n - a.length) := by
  rw [List.take_append_eq_append_take, List.take_of_length_le h]

lemma lead_of_take {c : Country} {value : List Char}
    (hv : value.take (protectedPos c) = '+' :: c.dialCode) :
    ∃ rest, value = '+' :: c.dialCode ++ rest := by
  refine ⟨value.drop (protectedPos c), ?_⟩
  conv_lhs => rw [← List.take_append_drop (protectedPos c) value]
  rw [hv]

lemma take_of_lead {c : Country} {value r : List Char}
    (hr : value = '+' :: c.dialCode ++ r) :
    value.take (protectedPos c) = '+' :: c.dialCode := by
  rw [hr]
  exact protected_take c r

lemma handleChange_lead (c : Country) (t : List Char) :
    ∃ rest, handleChange c t = '+' :: c.dialCode ++ rest := by
  by_cases h : startsWithL t ('+' :: c.dialCode) = true
  · refine ⟨(t.drop ('+' :: c.dialCode).length).filter Char.isDigit, ?_⟩
    have ht : t.take ('+' :: c.dialCode).length = '+' :: c.dialCode := startsWithL_iff.mp h
    unfold handleChange
    rw [if_pos h, ht]
  · refine ⟨t.filter Char.isDigit, ?_⟩
    unfold handleChange
    rw [if_neg h]

lemma keyOutcome_backspace_cases (value : List Char) (p s e : Nat) :
    handleKeyDownBackspace value p s e = .allowed
    ∨ handleKeyDownBackspace value p s e = .prevented none none
    ∨ handleKeyDownBackspace value p s e
        = .prevented (some (value.take p ++ value.drop e)) (some p) := by
  unfold handleKeyDownBackspace
  split_ifs <;> simp

lemma keyOutcome_delete_cases (value : List Char) (p s e : Nat) :
    handleKeyDownDelete value p s e = .allowed
    ∨ handleKeyDownDelete value p s e = .prevented none none
    ∨ handleKeyDownDelete value p s e
        = .prevented (some (value.take p ++ value.drop e)) (some p) := by
  unfold handleKeyDownDelete
  split_ifs <;> simp

lemma backspaceStep_lead (c : Country) (value : List Char) (s e : Nat)
    (hv : value.take (protectedPos c) = '+' :: c.dialCode) :
    ∃ rest, (backspaceStep c value s e).1 = '+' :: c.dialCode ++ rest := by
  rcases keyOutcome_backspace_cases value (protectedPos c) s e with h | h | h
  · unfold backspaceStep
    rw [h]
    exact handleChange_lead c (defaultBackspace value s e).1
  · unfold backspaceStep
    rw [h]
    exact lead_of_take hv
  · unfold backspaceStep
    rw [h]
    refine ⟨value.drop e, ?_⟩
    show value.take (protectedPos c) ++ value.drop e = '+' :: c.dialCode ++ value.drop e
    rw [hv]

lemma deleteStep_lead (c : Country) (value : List Char) (s e : Nat)
    (hv : value.take (protectedPos c) = '+' :: c.dialCode) :
    ∃ rest, (deleteStep c value s e).1 = '+' :: c.dialCode ++ rest := by
  rcases keyOutcome_delete_cases value (protectedPos c) s e with h | h | h
  · unfold deleteStep
    rw [h]
    exact handleChange_lead c (defaultDelete value s e).1
  · unfold deleteStep
    rw [h]
    exact lead_of_take hv
  · unfold deleteStep
    rw [h]
    refine ⟨value.drop e, ?_⟩
    show value.take (protectedPos c) ++ value.drop e = '+' :: c.dialCode ++ value.drop e
    rw [hv]

lemma handlePaste_lead (c : Country) (value : List Char) (s e : Nat) (clip : List Char)
    (hv : value.take (protectedPos c) = '+' :: c.dialCode) :
    ∃ rest, (handlePaste value (protectedPos c) s e clip).text
      = '+' :: c.dialCode ++ rest := by
  unfold handlePaste
  by_cases h0 : clip.filter Char.isDigit = []
  · rw [if_pos h0]
    exact lead_of_take hv
  · rw [if_neg h0]
    by_cases h1 : s < protectedPos c
    · rw [if_pos h1]
      refine ⟨clip.filter Char.isDigit
        ++ value.drop (if e > protectedPos c then e else protectedPos c), ?_⟩
      show value.take (protectedPos c) ++ clip.filter Char.isDigit
          ++ value.drop (if e > protectedPos c then e else protectedPos c)
        = '+' :: c.dialCode ++ (clip.filter Char.isDigit
            ++ value.drop (if e > protectedPos c then e else protectedPos c))
      rw [hv, List.append_assoc]
    · rw [if_neg h1]
      have hps : protectedPos c ≤ s := Nat.le_of_not_lt h1
      have h2 : (value.take s).take (protectedPos c) = '+' :: c.dialCode := by
        rw [List.take_take, min_eq_left hps, hv]
      obtain ⟨x, hx⟩ := lead_of_take h2
      refine ⟨x ++ (clip.filter Char.isDigit ++ value.drop e), ?_⟩
      show value.take s ++ clip.filter Char.isDigit ++ value.drop e
        = '+' :: c.dialCode ++ (x ++ (clip.filter Char.isDigit ++ value.drop e))
      rw [hx]
      simp [List.append_assoc]

lemma handleCut_text_cases (value : List Char) (p s e : Nat) :
    (handleCut value p s e).text = value
    ∨ (handleCut value p s e).text = value.take p ++ value.drop e := by
  unfold handleCut
  by_cases h1 : s < p
  · rw [if_pos h1]
    by_cases h2 : (value.take e).drop (max s p) = []
    · rw [if_pos h2]
      exact Or.inl rfl
    · rw [if_neg h2]
      by_cases h3 : e > p
      · rw [if_pos h3]
        exact Or.inr rfl
      · rw [if_neg h3]
        exact Or.inl rfl
  · rw [if_neg h1]
    exact Or.inl rfl


lemma step_good (st : InputState) (i : Intent) (h : goodState st) :
    goodState (step st i) := by
  cases i with
  | backspace s e =>
    obtain ⟨rest, hr⟩ := backspaceStep_lead st.country st.text s e h
    exact take_of_lead hr
  | deleteKey s e =>
    obtain ⟨rest, hr⟩ := deleteStep_lead st.country st.text s e h
    exact take_of_lead hr
  | homeKey sh => exact h
  | arrowLeft sh => exact h
  | paste s e clip =>
    obtain ⟨rest, hr⟩ := handlePaste_lead st.country st.text s e clip h
    exact take_of_lead hr
  | cut s e =>
    by_cases hp : (handleCut st.text (protectedPos st.country) s e).prevented = true
    · have hstep : step st (.cut s e)
          = { st with text := (handleCut st.text (protectedPos st.country) s e).text } := by
        simp [step, hp]
      rcases handleCut_text_cases st.text (protectedPos st.country) s e with hc | hc
      · show goodState (step st (.cut s e))
        rw [hstep]
        show ((handleCut st.text (protectedPos st.country) s e).text).take
            (protectedPos st.country) = '+' :: st.country.dialCode
        rw [hc]
        exact h
      · show goodState (step st (.cut s e))
        rw [hstep]
        show ((handleCut st.text (protectedPos st.country) s e).text).take
            (protectedPos st.country) = '+' :: st.country.dialCode
        rw [hc, h]
        exact protected_take st.country (st.text.drop e)
    · have hstep : step st (.cut s e)
          = { st with
              text := handleChange st.country (st.text.take s ++ st.text.drop e) } := by
        simp [step, hp]
      rw [hstep]
      obtain ⟨rest, hr⟩ :=
        handleChange_lead st.country (st.text.take s ++ st.text.drop e)
      exact take_of_lead hr
  | change t =>
    obtain ⟨rest, hr⟩ := handleChange_lead st.country t
    exact take_of_lead hr
  | selectCountry c2 =>
    show goodState (handleCountryChange st c2)
    unfold goodState handleCountryChange
    exact protected_take c2 _

lemma runIntents_good (st : InputState) (l : List Intent) (h : goodState st) :
    goodState (runIntents st l) := by
  induction l generalizing st with
  | nil => exact h
  | cons i is ih => exact ih (step st i) (step_good st i h)

/-- Claim C1: every state reachable from an initial state by Backspace,
Delete, Home/arrow keys, paste, cut, text-change events and country
selections has non-empty raw text that begins with a plus sign followed by
the currently selected country's dial code digits. -/
theorem dial_lead_reachable_invariant (c : Country) (intents : List Intent) :
    (runIntents (initState c) intents).text ≠ []
    ∧ ∃ rest, (runIntents (initState c) intents).text
        = '+' :: (runIntents (initState c) intents).country.dialCode ++ rest := by
  have h0 : goodState (initState c) := by
    show ('+' :: c.dialCode).take (protectedPos c) = '+' :: c.dialCode
    exact List.take_of_length_le (by simp only [List.length_cons, protectedPos]; omega)
  have hg := runIntents_good (initState c) intents h0
  obtain ⟨r, hr⟩ := lead_of_take hg
  refine ⟨?_, ⟨r, hr⟩⟩
  rw [hr]
  simp

lemma digitOrPlus_plus : digitOrPlus '+' = true := by decide

lemma cleanedOf_fix_of_all {l : List Char} (h : ∀ ch ∈ l, digitOrPlus ch = true) :
    cleanedOf l = l :=
  List.filter_eq_self.mpr h

lemma cleanedOf_idem (v : List Char) : cleanedOf (cleanedOf v) = cleanedOf v :=
  cleanedOf_fix_of_all (fun _ hm => List.of_mem_filter hm)

lemma cleanedOf_cons_plus (l : List Char) : cleanedOf ('+' :: l) = '+' :: cleanedOf l := by
  simp [cleanedOf, List.filter_cons, digitOrPlus_plus]

lemma strip_sub {ch : Char} {l : List Char} (h : ch ∈ stripLeadingPlus l) : ch ∈ l := by
  cases l with
  | nil => exact absurd h (by simp [stripLeadingPlus])
  | cons a t =>
    simp only [stripLeadingPlus] at h
    split_ifs at h with ha
    · exact List.mem_cons_of_mem a h
    · exact h

lemma sw_plus_of_sw_plus_dc {s dc : List Char} (h : startsWithL s ('+' :: dc) = true) :
    startsWithL s ['+'] = true := by
  obtain ⟨rest, hr⟩ := exists_of_startsWithL h
  rw [hr]
  exact startsWithL_append ['+'] (dc ++ rest)

lemma sw_cons_of_sw {s dc : List Char} (h : startsWithL s dc = true) :
    startsWithL ('+' :: s) ('+' :: dc) = true := by
  rw [startsWithL_iff] at h ⊢
  simp [List.take_succ_cons, h]

lemma startsWithL_cons_append (dc x : List Char) :
    startsWithL ('+' :: (dc ++ x)) ('+' :: dc) = true :=
  startsWithL_append ('+' :: dc) x

lemma normalize_some_fix (v : List Char) (c : Country)
    (hdc : ∀ ch ∈ c.dialCode, ch.isDigit = true) :
    cleanedOf (normalizePhoneValue v (some c)) = normalizePhoneValue v (some c)
    ∧ startsWithL (normalizePhoneValue v (some c)) ('+' :: c.dialCode) = true := by
  have hdcp : ∀ ch ∈ c.dialCode, digitOrPlus ch = true := fun ch hm => by
    simp [digitOrPlus, hdc ch hm]
  by_cases hA : startsWithL (cleanedOf v) ('+' :: c.dialCode) = true
  · by_cases hP : startsWithL (cleanedOf v) ['+'] = true
    · have hr : normalizePhoneValue v (some c) = cleanedOf v := by
        unfold normalizePhoneValue
        simp [hA, hP]
      rw [hr]
      exact ⟨cleanedOf_idem v, hA⟩
    · exact absurd (sw_plus_of_sw_plus_dc hA) hP
  · by_cases hB : startsWithL (cleanedOf v) c.dialCode = true
    · by_cases hP : startsWithL (cleanedOf v) ['+'] = true
      · exfalso
        cases hdl : c.dialCode with
        | nil =>
          apply hA
          rw [hdl]
          exact hP
        | cons d ds =>
          obtain ⟨x, hx⟩ := exists_of_startsWithL hB
          obtain ⟨y, hy⟩ := exists_of_startsWithL hP
          rw [hdl] at hx
          rw [hx] at hy
          simp only [List.cons_append, List.singleton_append, List.cons.injEq] at hy
          have hdig := hdc d (by rw [hdl]; exact List.mem_cons_self d ds)
          rw [hy.1] at hdig
          exact absurd hdig (by decide)
      · have hr : normalizePhoneValue v (some c) = '+' :: cleanedOf v := by
          unfold normalizePhoneValue
          simp [hA, hB, hP]
        rw [hr]
        constructor
        · rw [cleanedOf_cons_plus, cleanedOf_idem]
        · exact sw_cons_of_sw hB
    · have hr : normalizePhoneValue v (some c)
          = '+' :: c.dialCode ++ stripLeadingPlus (cleanedOf v) := by
        unfold normalizePhoneValue
        simp [hA, hB]
      rw [hr]
      constructor
      · apply cleanedOf_fix_of_all
        intro ch hm
        rcases List.mem_cons.mp hm with h1 | h1
        · subst h1; exact digitOrPlus_plus
        · rcases List.mem_append.mp h1 with h2 | h2
          · exact hdcp ch h2
          · exact List.of_mem_filter (strip_sub h2)
      · exact startsWithL_cons_append c.dialCode _

lemma normalize_of_fixed (r : List Char) (c : Country)
    (hfix : cleanedOf r = r)
    (hsw : startsWithL r ('+' :: c.dialCode) = true) :
    normalizePhoneValue r (some c) = r := by
  have hP : startsWithL r ['+'] = true := sw_plus_of_sw_plus_dc hsw
  unfold normalizePhoneValue
  simp [hsw, hP, hfix]

/-- Claim C7: `normalizePhoneValue` is idempotent — for every text and every
country (including the null country) whose dial code consists of digits,
normalizing twice equals normalizing once. -/
theorem normalizePhoneValue_idem (v : List Char) (country : Option Country)
    (hdc : ∀ c, country = some c → ∀ ch ∈ c.dialCode, ch.isDigit = true) :
    normalizePhoneValue (normalizePhoneValue v country) country
      = normalizePhoneValue v country := by
  cases country with
  | none => rfl
  | some c =>
    obtain ⟨hfix, hsw⟩ := normalize_some_fix v c (hdc c rfl)
    exact normalize_of_fixed _ c hfix hsw

/-- Claim C7 (witness): normalizing `"20a2#"` twice for the US equals
normalizing it once. -/
theorem normalizePhoneValue_idem_witness :
    normalizePhoneValue (normalizePhoneValue "20a2#".toList (some usC)) (some usC)
      = normalizePhoneValue "20a2#".toList (some usC) :=
  normalizePhoneValue_idem _ (some usC) (by intro c hc; cases hc; decide)

lemma isDigit_of_digitOrPlus {ch : Char} (h : digitOrPlus ch = true) (hne : ch ≠ '+') :
    ch.isDigit = true := by
  simp [digitOrPlus] at h
  rcases h with h | h
  · exact h
  · exact absurd h hne

lemma formatLoop_nil (fmt : List Char) : formatLoop fmt [] = ([], []) := by
  cases fmt <;> rfl

lemma getLast?_cons_of_ne_nil {a : Char} {l : List Char} (h : l ≠ []) :
    (a :: l).getLast? = l.getLast? := by
  cases l with
  | nil => exact absurd rfl h
  | cons b t => simp [List.getLast?]

lemma formatLoop_last (fmt : List Char) : ∀ ds : List Char, ds ≠ [] →
    ∃ ch ∈ ds, ((formatLoop fmt ds).1 ++ (formatLoop fmt ds).2).getLast? = some ch := by
  induction fmt with
  | nil =>
    intro ds hds
    cases ds with
    | nil => exact absurd rfl hds
    | cons d dt =>
      refine ⟨(d :: dt).getLast (by simp), List.getLast_mem _, ?_⟩
      show (([] : List Char) ++ d :: dt).getLast? = _
      rw [List.nil_append]
      exact List.getLast?_eq_getLast _ _
  | cons f fs ih =>
    intro ds hds
    cases ds with
    | nil => exact absurd rfl hds
    | cons d dt =>
      by_cases hf : (f == '.') = true
      · have hred : formatLoop (f :: fs) (d :: dt)
            = (d :: (formatLoop fs dt).1, (formatLoop fs dt).2) := by
          simp [formatLoop, hf]
        rw [hred]
        cases hdt : dt with
        | nil =>
          refine ⟨d, List.mem_cons_self d _, ?_⟩
          simp [formatLoop_nil]
        | cons d2 dt2 =>
          obtain ⟨ch, hmem, hlast⟩ := ih dt (by rw [hdt]; simp)
          rw [hdt] at hmem hlast
          refine ⟨ch, List.mem_cons_of_mem d hmem, ?_⟩
          have hne : (formatLoop fs (d2 :: dt2)).1 ++ (formatLoop fs (d2 :: dt2)).2 ≠ [] := by
            intro hemp
            rw [hemp] at hlast
            simp at hlast
          rw [List.cons_append, getLast?_cons_of_ne_nil hne]
          exact hlast
      · have hred : formatLoop (f :: fs) (d :: dt)
            = (f :: (formatLoop fs (d :: dt)).1, (formatLoop fs (d :: dt)).2) := by
          simp [formatLoop, hf]
        rw [hred]
        obtain ⟨ch, hmem, hlast⟩ := ih (d :: dt) (by simp)
        refine ⟨ch, hmem, ?_⟩
        have hne : (formatLoop fs (d :: dt)).1 ++ (formatLoop fs (d :: dt)).2 ≠ [] := by
          intro hemp
          rw [hemp] at hlast
          simp at hlast
        rw [List.cons_append, getLast?_cons_of_ne_nil hne]
        exact hlast

lemma cleanDigits_all_digits (phone : List Char) (c : Country)
    (hdc : ∀ ch ∈ c.dialCode, ch.isDigit = true)
    (hphone : ∀ ch ∈ (cleanedOf phone).drop 1, ch ≠ '+') :
    ∀ ch ∈ cleanDigitsOf phone c, ch.isDigit = true := by
  intro ch hm
  unfold cleanDigitsOf at hm
  by_cases hp : phone = []
  · rw [if_pos hp] at hm
    simp at hm
  · rw [if_neg hp] at hm
    simp only [digitsOfPhone] at hm
    by_cases hsw : startsWithL (cleanedOf phone) ['+'] = true
    · rw [if_pos hsw] at hm
      obtain ⟨y, hy⟩ := exists_of_startsWithL hsw
      rw [hy] at hm hphone
      simp only [List.singleton_append] at hm hphone
      have hstrip : stripLeadingPlus ('+' :: y) = y := by simp [stripLeadingPlus]
      rw [hstrip] at hm
      have hmem : ch ∈ cleanedOf phone := by
        rw [hy]
        exact List.mem_cons_of_mem _ hm
      refine isDigit_of_digitOrPlus (List.of_mem_filter hmem) ?_
      exact hphone ch (by simpa using hm)
    · rw [if_neg hsw] at hm
      have hstrip : stripLeadingPlus ('+' :: c.dialCode ++ cleanedOf phone)
          = c.dialCode ++ cleanedOf phone := by
        show stripLeadingPlus ('+' :: (c.dialCode ++ cleanedOf phone))
          = c.dialCode ++ cleanedOf phone
        simp [stripLeadingPlus]
      rw [hstrip] at hm
      rcases List.mem_append.mp hm with h1 | h1
      · exact hdc ch h1
      · have hall : ∀ ch2 ∈ cleanedOf phone, ch2 ≠ '+' := by
          intro ch2 hm2
          cases hcl : cleanedOf phone with
          | nil => rw [hcl] at hm2; simp at hm2
          | cons a t =>
            rw [hcl] at hm2
            rcases List.mem_cons.mp hm2 with h2 | h2
            · subst h2
              intro hEq
              apply hsw
              rw [hcl, hEq]
              exact startsWithL_append ['+'] t
            · exact hphone ch2 (by rw [hcl]; simpa using h2)
        exact isDigit_of_digitOrPlus (List.of_mem_filter h1) (hall ch h1)

/-- Claim C10: for a country with a format template, digit-only dial code and
input without interior plus signs, formatting an empty clean digit string
yields the empty string, and a non-empty clean digit string yields output
ending in a digit — so trailing template literals are never emitted and
formatting stops right after the last consumed digit. -/
theorem formatPhoneNumber_trailing (phone : List Char) (c : Country) (fmt : List Char)
    (dp : Bool)
    (hfmt : c.format = some fmt)
    (hdc : ∀ ch ∈ c.dialCode, ch.isDigit = true)
    (hphone : ∀ ch ∈ (cleanedOf phone).drop 1, ch ≠ '+') :
    (cleanDigitsOf phone c = [] → formatPhoneNumber phone (some c) dp = [])
    ∧ (cleanDigitsOf phone c ≠ [] →
        ∃ ch, (formatPhoneNumber phone (some c) dp).getLast? = some ch
          ∧ ch.isDigit = true) := by
  by_cases hp : phone = []
  · constructor
    · intro _
      rw [hp]
      rfl
    · intro hne
      exfalso
      apply hne
      rw [hp]
      rfl
  · have hred : formatPhoneNumber phone (some c) dp
        = (formatLoop
            (if dp then fmt.filter (fun ch => !(ch == '(' || ch == ')')) else fmt)
            (cleanDigitsOf phone c)).1
          ++ (formatLoop
            (if dp then fmt.filter (fun ch => !(ch == '(' || ch == ')')) else fmt)
            (cleanDigitsOf phone c)).2 := by
      simp [formatPhoneNumber, cleanDigitsOf, hp, hfmt]
    constructor
    · intro hcd
      rw [hred, hcd, formatLoop_nil]
      rfl
    · intro hcd
      obtain ⟨ch, hmem, hlast⟩ :=
        formatLoop_last
          (if dp then fmt.filter (fun ch => !(ch == '(' || ch == ')')) else fmt)
          (cleanDigitsOf phone c) hcd
      refine ⟨ch, ?_, cleanDigits_all_digits phone c hdc hphone ch hmem⟩
      rw [hred]
      exact hlast

/-- Claim C10 (witness): formatting `"+1202555"` for the US yields output
ending in a digit. -/
theorem formatPhoneNumber_trailing_witness :
    ∃ ch, (formatPhoneNumber "+1202555".toList (some usC) false).getLast? = some ch
      ∧ ch.isDigit = true :=
  (formatPhoneNumber_trailing "+1202555".toList usC "+. (...) ...-....".toList false
    rfl (by decide) (by decide)).2 (by decide)

lemma distinctAux_sublist : ∀ (l : List Country) (seen : List (List Char)),
    (distinctAux l seen).Sublist l := by
  intro l
  induction l with
  | nil => intro seen; simp [distinctAux]
  | cons c rest ih =>
    intro seen
    by_cases h : memB c.dialCode seen = true
    · rw [show distinctAux (c :: rest) seen = distinctAux rest seen from by
        simp [distinctAux, h]]
      exact (ih seen).cons c
    · rw [show distinctAux (c :: rest) seen = c :: distinctAux rest (c.dialCode :: seen) from by
        simp [distinctAux, h]]
      exact (ih (c.dialCode :: seen)).cons₂ c

lemma distinctAux_not_seen : ∀ (l : List Country) (seen : List (List Char)) (x : Country),
    x ∈ distinctAux l seen → memB x.dialCode seen = false := by
  intro l
  induction l with
  | nil => intro seen x hx; simp [distinctAux] at hx
  | cons c rest ih =>
    intro seen x hx
    by_cases h : memB c.dialCode seen = true
    · rw [show distinctAux (c :: rest) seen = distinctAux rest seen from by
        simp [distinctAux, h]] at hx
      exact ih seen x hx
    · rw [show distinctAux (c :: rest) seen = c :: distinctAux rest (c.dialCode :: seen) from by
        simp [distinctAux, h]] at hx
      rcases List.mem_cons.mp hx with h1 | h1
      · subst h1
        simpa using h
      · have hrec := ih (c.dialCode :: seen) x h1
        simp [memB] at hrec
        simpa using hrec.2

lemma distinctAux_pairwise : ∀ (l : List Country) (seen : List (List Char)),
    (distinctAux l seen).Pairwise (fun a b => a.dialCode ≠ b.dialCode) := by
  intro l
  induction l with
  | nil => intro seen; simp [distinctAux]
  | cons c rest ih =>
    intro seen
    by_cases h : memB c.dialCode seen = true
    · rw [show distinctAux (c :: rest) seen = distinctAux rest seen from by
        simp [distinctAux, h]]
      exact ih seen
    · rw [show distinctAux (c :: rest) seen = c :: distinctAux rest (c.dialCode :: seen) from by
        simp [distinctAux, h]]
      refine List.Pairwise.cons ?_ (ih (c.dialCode :: seen))
      intro x hx
      have hrec := distinctAux_not_seen rest (c.dialCode :: seen) x hx
      simp [memB] at hrec
      exact fun hEq => hrec.1 hEq.symm

lemma onlyPass_sublist (only : Option (List (List Char))) (l : List Country) :
    (onlyPass only l).Sublist l := by
  cases only with
  | none => exact List.Sublist.refl l
  | some o =>
    by_cases h : o.isEmpty = true
    · rw [show onlyPass (some o) l = l from by simp [onlyPass, h]]
    · rw [show onlyPass (some o) l
          = l.filter (fun c => memB (upperStr c.iso2) (o.map upperStr)) from by
        simp [onlyPass, h]]
      exact List.filter_sublist l

lemma excludePass_sublist (excl : Option (List (List Char))) (l : List Country) :
    (excludePass excl l).Sublist l := by
  cases excl with
  | none => exact List.Sublist.refl l
  | some ex =>
    by_cases h : ex.isEmpty = true
    · rw [show excludePass (some ex) l = l from by simp [excludePass, h]]
    · rw [show excludePass (some ex) l
          = l.filter (fun c => !(memB (upperStr c.iso2) (ex.map upperStr))) from by
        simp [excludePass, h]]
      exact List.filter_sublist l

/-- Claim C8: the working list applies `only`, then `exclude`, then the
`distinct` reduction; it is a sublist of the catalog (order preserved); the
filters depend on the ISO2 code lists only through their upper-cased images
(case-insensitive matching); an `only` filter producing an empty list makes
the working list empty; and with `distinct` enabled the result has pairwise
distinct dial codes, keeping the first catalog occurrence per dial code. -/
theorem useCountriesList_spec (catalog : List Country) (o₁ o₂ e₁ e₂ : List (List Char))
    (d : Bool)
    (ho : o₁.map upperStr = o₂.map upperStr) (hoe : o₁.isEmpty = o₂.isEmpty)
    (he : e₁.map upperStr = e₂.map upperStr) (hee : e₁.isEmpty = e₂.isEmpty) :
    (useCountriesList catalog (some o₁) (some e₁) d).Sublist catalog
    ∧ useCountriesList catalog (some o₁) (some e₁) d
        = distinctPass d (excludePass (some e₁) (onlyPass (some o₁) catalog))
    ∧ useCountriesList catalog (some o₁) (some e₁) d
        = useCountriesList catalog (some o₂) (some e₂) d
    ∧ (o₁ ≠ [] → onlyPass (some o₁) catalog = []
        → useCountriesList catalog (some o₁) (some e₁) d = [])
    ∧ (d = true → (useCountriesList catalog (some o₁) (some e₁) d).Pairwise
        (fun a b => a.dialCode ≠ b.dialCode)) := by
  refine ⟨?_, rfl, ?_, ?_, ?_⟩
  · have h1 := onlyPass_sublist (some o₁) catalog
    have h2 := excludePass_sublist (some e₁) (onlyPass (some o₁) catalog)
    have h3 : (useCountriesList catalog (some o₁) (some e₁) d).Sublist
        (excludePass (some e₁) (onlyPass (some o₁) catalog)) := by
      unfold useCountriesList distinctPass
      by_cases hd : d = true
      · rw [if_pos hd]
        exact distinctAux_sublist _ []
      · rw [if_neg hd]
    exact h3.trans (h2.trans h1)
  · simp only [useCountriesList, excludePass, onlyPass, ho, hoe, he, hee]
  · intro _ h0
    unfold useCountriesList
    rw [h0]
    have hx : excludePass (some e₁) ([] : List Country) = [] := by
      simp only [excludePass]
      by_cases hE : e₁.isEmpty = true
      · rw [if_pos hE]
      · rw [if_neg hE]
        rfl
    rw [hx]
    unfold distinctPass
    by_cases hd : d = true
    · rw [if_pos hd]
      rfl
    · rw [if_neg hd]
  · intro hd
    subst hd
    unfold useCountriesList distinctPass
    rw [if_pos rfl]
    exact distinctAux_pairwise _ []

/-- Claim C8 (witness): on the catalog [US, CA, GB-like] the working list for
lower-case codes equals the working list for upper-case codes. -/
theorem useCountriesList_spec_witness :
    useCountriesList [usC, caC, gbShort]
        (some ["us".toList, "gb".toList, "ca".toList]) (some []) true
      = useCountriesList [usC, caC, gbShort]
        (some ["US".toList, "GB".toList, "CA".toList]) (some []) true :=
  (useCountriesList_spec [usC, caC, gbShort]
    ["us".toList, "gb".toList, "ca".toList] ["US".toList, "GB".toList, "CA".toList]
    [] [] true (by decide) rfl rfl rfl).2.2.1
